import Mathlib

/-!
Verification of GNU `cmp` (src/cmp.c) against its specification.

The byte streams and read buffers are modelled as `List Nat` (each element a
byte value).  A machine word is modelled as the sequence of its
`sizeof (word)` bytes: C's word equality `*l0 == *l1` is equality of the two
byte sequences, and the per-byte extraction `(unsigned char) l` / `l >>= CHAR_BIT`
of a word is walking that sequence.  The word size is kept as a parameter `W`.
-/

namespace Cmp

/-- Output format selector from cmp.c: `comparison_type`. -/
inductive CompType
  | type_first_diff
  | type_all_diffs
  | type_status
deriving DecidableEq, Repr

/-- The byte-wise rescans of `block_compare` / `block_compare_and_count`
(lines 460-463 and 489-492): advance while the current bytes agree.  The scan
stops at the end of a list, which in C is guaranteed to happen no later than
the sentinel byte; so the result is the offset of the first differing byte,
or the length of the shorter list when no byte differs. -/
def byte_scan : List Nat → List Nat → Nat
  | c0 :: r0, c1 :: r1 => if c0 = c1 then byte_scan r0 r1 + 1 else 0
  | _, _ => 0

/-- The newline count performed by the byte-wise rescan of
`block_compare_and_count` (line 463): `cnt += *c0 == '\n'` for each equal
byte.  Returns (offset of first differing byte, newline count strictly
before it). -/
def byte_scan_count : List Nat → List Nat → Nat × Nat
  | c0 :: r0, c1 :: r1 =>
    if c0 = c1 then
      let p := byte_scan_count r0 r1
      (p.1 + 1, p.2 + (if c0 = 10 then 1 else 0))
    else (0, 0)
  | _, _ => (0, 0)

/-- `block_compare` (lines 475-495): scan word by word while the words are
equal, then rescan the differing word byte by byte.  A word is `W`
consecutive bytes; the C code never runs out of buffer because of the
sentinels, the model additionally stops when fewer than `W` bytes remain. -/
def block_compare (W : Nat) (b0 b1 : List Nat) : Nat :=
  if _h : 0 < W ∧ W ≤ b0.length ∧ W ≤ b1.length ∧ b0.take W = b1.take W then
    W + block_compare W (b0.drop W) (b1.drop W)
  else
    byte_scan b0 b1
termination_by b0.length
decreasing_by
  simp only [List.length_drop]
  omega

/-- The inner loop of `block_compare_and_count` (lines 451-455): count the
zero bytes of a word (already XORed against `nnnn`). -/
def zero_byte_count : List Nat → Nat
  | [] => 0
  | b :: r => (if b = 0 then 1 else 0) + zero_byte_count r

/-- `block_compare_and_count` (lines 431-467): same word-wise scan as
`block_compare`, but each word confirmed equal is XORed against `nnnn`
(the byte `'\n' = 10` repeated `W` times) and the zero bytes of the result
are counted.  Returns (offset of first difference, newline count); the C
function increments `*count` by the latter and returns the former. -/
def block_compare_and_count (W : Nat) (b0 b1 : List Nat) : Nat × Nat :=
  if _h : 0 < W ∧ W ≤ b0.length ∧ W ≤ b1.length ∧ b0.take W = b1.take W then
    let p := block_compare_and_count W (b0.drop W) (b1.drop W)
    (W + p.1,
     zero_byte_count (List.zipWith (fun a b => a ^^^ b) (b0.take W) (List.replicate W 10)) + p.2)
  else
    byte_scan_count b0 b1
termination_by b0.length
decreasing_by
  simp only [List.length_drop]
  omega

/-- Bitwise complement `~` of an unsigned char (bytes are < 256). -/
def compl_byte (b : Nat) : Nat := 255 - b

/-- The sentinel writes of `cmp` (lines 332-333):
`buf0[read0] = ~buf1[read0]; buf1[read1] = ~buf0[read1];`
(the second write reads the first buffer after the first write). -/
def add_sentinels (b0 b1 : List Nat) (r0 r1 : Nat) : List Nat × List Nat :=
  let b0' := b0.set r0 (compl_byte (b1.getD r0 0))
  let b1' := b1.set r1 (compl_byte (b0'.getD r1 0))
  (b0', b1')

/-- Number of newline bytes in a list (specification side of the counting). -/
def nl_count : List Nat → Nat
  | [] => 0
  | b :: r => (if b = 10 then 1 else 0) + nl_count r

/-! ### The comparison driver `cmp` -/

/-- One unit of observable output of the driver:
`first_diff_report` is the `... differ: char N, line L` line (lines 358/368,
standard output; the differing byte values are carried so that both the
plain and the `-b` rendering are determined);
`diff_line` is one line of the `-l` listing (lines 389/396, standard output);
`eof_on f` is the `cmp: EOF on file[f]` diagnostic (line 413, standard
error). -/
inductive Event
  | first_diff_report (charNum lineNum c0 c1 : Nat)
  | diff_line (charNum c0 c1 : Nat)
  | eof_on (f : Nat)
deriving DecidableEq, Repr

/-- The inner enumeration loop of `type_all_diffs` (lines 377-403): one line
per differing byte pair from `i` up to `smaller`, `char_number` incremented
at every position.  The C loop is do-while but is only entered when
`first_diff < smaller`, where it coincides with this while loop. -/
def all_diffs_lines (buf0 buf1 : List Nat) (charNum i smaller : Nat) : List Event :=
  if _h : i < smaller then
    (if buf0.getD i 0 ≠ buf1.getD i 0 then
      [Event.diff_line charNum (buf0.getD i 0) (buf1.getD i 0)]
     else [])
    ++ all_diffs_lines buf0 buf1 (charNum + 1) (i + 1) smaller
  else []
termination_by smaller - i
decreasing_by omega

/-- The read/compare loop of `cmp` (lines 321-419).  Each block holds the
next `bufSize` bytes of each stream (`block_read` fills the buffer unless
EOF intervenes, so `read = min bufSize remaining`).  The buffers are
over-allocated; the bytes past the read length are unspecified leftover
memory in C and `0` here — the sentinel lemmas below show the results do
not depend on them.  `ret` is the accumulated exit status of the
`type_all_diffs` mode. -/
def cmp_loop (ct : CompType) (W bufSize charNum lineNum ret : Nat)
    (in0 in1 : List Nat) : Nat × List Event :=
  let read0 := min bufSize in0.length
  let read1 := min bufSize in1.length
  let buf0 := in0.take bufSize ++ List.replicate (bufSize + 1 - read0) 0
  let buf1 := in1.take bufSize ++ List.replicate (bufSize + 1 - read1) 0
  let s := add_sentinels buf0 buf1 read0 read1
  let first_diff :=
    if ct = CompType.type_first_diff then (block_compare_and_count W s.1 s.2).1
    else block_compare W s.1 s.2
  let charNum := charNum + first_diff
  let lineNum := lineNum +
    (if ct = CompType.type_first_diff then (block_compare_and_count W s.1 s.2).2 else 0)
  let smaller := min read0 read1
  if first_diff < smaller ∧ ct = CompType.type_first_diff then
    (1, [Event.first_diff_report charNum lineNum (s.1.getD first_diff 0) (s.2.getD first_diff 0)])
  else if first_diff < smaller ∧ ct = CompType.type_status then
    (1, [])
  else
    let evs := if first_diff < smaller then
        all_diffs_lines s.1 s.2 charNum first_diff smaller else []
    let ret := if first_diff < smaller then 1 else ret
    if read0 ≠ read1 then
      (1, evs ++ if ct = CompType.type_status then []
                 else [Event.eof_on (if read1 < read0 then 1 else 0)])
    else if _h2 : 0 < bufSize ∧ read0 = bufSize then
      let p := cmp_loop ct W bufSize (charNum + (smaller - first_diff)) lineNum ret
        (in0.drop bufSize) (in1.drop bufSize)
      (p.1, evs ++ p.2)
    else (ret, evs)
termination_by in0.length
decreasing_by simp only [List.length_drop]; omega

/-- `cmp` (lines 287-420): run the loop with `char_number = ignore_initial + 1`
and `line_number = 1`.  `in0`, `in1` are the stream contents after the
initial skip. -/
def cmp (ct : CompType) (W bufSize ignore_initial : Nat)
    (in0 in1 : List Nat) : Nat × List Event :=
  cmp_loop ct W bufSize (ignore_initial + 1) 1 0 in0 in1

/-- Byte-level restatement of `cmp_loop`: the word-wise comparators and the
sentinel bookkeeping replaced by `byte_scan` / `nl_count` on the bare
blocks.  `cmp_loop_eq_simple` proves it equal to `cmp_loop`. -/
def cmp_loop_simple (ct : CompType) (bufSize charNum lineNum ret : Nat)
    (in0 in1 : List Nat) : Nat × List Event :=
  let read0 := min bufSize in0.length
  let read1 := min bufSize in1.length
  let blk0 := in0.take bufSize
  let blk1 := in1.take bufSize
  let first_diff := byte_scan blk0 blk1
  let charNum := charNum + first_diff
  let lineNum := lineNum +
    (if ct = CompType.type_first_diff then nl_count (blk0.take first_diff) else 0)
  let smaller := min read0 read1
  if first_diff < smaller ∧ ct = CompType.type_first_diff then
    (1, [Event.first_diff_report charNum lineNum (blk0.getD first_diff 0) (blk1.getD first_diff 0)])
  else if first_diff < smaller ∧ ct = CompType.type_status then
    (1, [])
  else
    let evs := if first_diff < smaller then
        all_diffs_lines blk0 blk1 charNum first_diff smaller else []
    let ret := if first_diff < smaller then 1 else ret
    if read0 ≠ read1 then
      (1, evs ++ if ct = CompType.type_status then []
                 else [Event.eof_on (if read1 < read0 then 1 else 0)])
    else if _h2 : 0 < bufSize ∧ read0 = bufSize then
      let p := cmp_loop_simple ct bufSize (charNum + (smaller - first_diff)) lineNum ret
        (in0.drop bufSize) (in1.drop bufSize)
      (p.1, evs ++ p.2)
    else (ret, evs)
termination_by in0.length
decreasing_by simp only [List.length_drop]; omega


/-- One expected `-l` output line per differing byte position below `n`,
in increasing position order: the specification side of `type_all_diffs`. -/
def diff_lines_spec (c : Nat) (i0 i1 : List Nat) (n : Nat) : List Event :=
  (List.range n).filterMap (fun j =>
    if i0.getD j 0 = i1.getD j 0 then none
    else some (Event.diff_line (c + j) (i0.getD j 0) (i1.getD j 0)))

/-- `ISPRINT` in the C locale: the printable ASCII bytes. -/
def ISPRINT (c : Nat) : Bool := decide (32 ≤ c ∧ c ≤ 126)

/-- `sprintc` (lines 501-531): quote a byte like `cat -t` does and pad with
spaces on the right to `width` characters.  The C `width` is an `int` that
the quoting steps push below zero, hence `Int`; the padding loop
`while (--width > 0)` appends `width - 1` spaces when that is positive.
The trailing NUL terminator is not part of the rendered text. -/
def sprintc (width : Int) (c : Nat) : List Char :=
  let q : List Char × Nat × Int :=
    if ¬ ISPRINT c then
      let q1 : List Char × Nat × Int :=
        if 128 ≤ c then (['M', '-'], c - 128, width - 2) else ([], c, width)
      if q1.2.1 < 32 then (q1.1 ++ ['^'], q1.2.1 + 64, q1.2.2 - 1)
      else if q1.2.1 = 127 then (q1.1 ++ ['^'], 63, q1.2.2 - 1)
      else q1
    else ([], c, width)
  q.1 ++ [Char.ofNat q.2.1] ++ List.replicate (q.2.2 - 1).toNat ' '

/-- The `-l` / `-s` cases of the option switch (lines 168-174): each
occurrence overwrites `comparison_type`; any other option character leaves
it unchanged. -/
def apply_option (t : CompType) (c : Char) : CompType :=
  if c = 'l' then CompType.type_all_diffs
  else if c = 's' then CompType.type_status
  else t

/-- The `comparison_type` after the whole option loop (lines 148-189),
starting from the zero-initialised static, i.e. `type_first_diff`. -/
def parse_comparison_type (opts : List Char) : CompType :=
  opts.foldl apply_option CompType.type_first_diff

/-- The open/fstat failure handling of `main` for one operand `f`
(lines 211-220): `some (exit code, operand named in the diagnostic)` when
the program exits there, `none` when the operand opened fine.  A failed
open in status mode exits 2 silently; any other failure prints the
diagnostic naming the operand and exits 2. -/
def open_check (ct : CompType) (openFail statFail : Bool) (f : Nat) :
    Option (Nat × Option Nat) :=
  if openFail || statFail then
    if openFail && decide (ct = CompType.type_status) then some (2, none)
    else some (2, some f)
  else none

/-- `file_position` (lines 536-548) for an operand freshly opened at file
position 0 on which `lseek` succeeds: the memoized
`lseek (fd, ignore_initial, SEEK_CUR)` lands on `ignore_initial`. -/
def file_position (ignore_initial : Nat) : Int := ignore_initial

/-- The status-mode size shortcut of `main` and the subsequent comparison
(lines 250-259 and 272): when only an exit status is needed and both
operands are regular files, unequal `st_size - file_position` values
(each clamped to 0) decide "different" without reading any content;
otherwise `cmp` runs on the (post-skip) contents. -/
def run_after_open (ct : CompType) (W bufSize : Nat) (isReg0 isReg1 : Bool)
    (size0 size1 : Int) (ignore_initial : Nat) (c0 c1 : List Nat) :
    Nat × List Event :=
  if ct = CompType.type_status ∧ isReg0 ∧ isReg1
      ∧ max 0 (size0 - file_position ignore_initial)
        ≠ max 0 (size1 - file_position ignore_initial) then
    (1, [])
  else cmp ct W bufSize ignore_initial c0 c1


/-! ### Basic facts about `byte_scan` -/

theorem byte_scan_nil_left (b1 : List Nat) : byte_scan [] b1 = 0 := by
  cases b1 <;> rfl

theorem byte_scan_nil_right (b1 : List Nat) : byte_scan b1 [] = 0 := by
  cases b1 <;> rfl

theorem byte_scan_le (b0 b1 : List Nat) :
    byte_scan b0 b1 ≤ min b0.length b1.length := by
  induction b0 generalizing b1 with
  | nil => simp [byte_scan_nil_left]
  | cons c0 r0 ih =>
    cases b1 with
    | nil => simp [byte_scan_nil_right]
    | cons c1 r1 =>
      by_cases h : c0 = c1
      · simp only [byte_scan, if_pos h, List.length_cons]
        have := ih r1
        omega
      · simp only [byte_scan, if_neg h]
        omega

theorem byte_scan_agree (b0 b1 : List Nat) :
    ∀ j, j < byte_scan b0 b1 → b0[j]? = b1[j]? := by
  induction b0 generalizing b1 with
  | nil => simp [byte_scan_nil_left]
  | cons c0 r0 ih =>
    cases b1 with
    | nil => simp [byte_scan_nil_right]
    | cons c1 r1 =>
      intro j hj
      by_cases h : c0 = c1
      · simp only [byte_scan, if_pos h] at hj
        cases j with
        | zero => simp [h]
        | succ j => simpa using ih r1 j (by omega)
      · simp [byte_scan, if_neg h] at hj

theorem byte_scan_ne (b0 b1 : List Nat)
    (h0 : byte_scan b0 b1 < b0.length) (h1 : byte_scan b0 b1 < b1.length) :
    b0[byte_scan b0 b1]? ≠ b1[byte_scan b0 b1]? := by
  induction b0 generalizing b1 with
  | nil => simp at h0
  | cons c0 r0 ih =>
    cases b1 with
    | nil => simp at h1
    | cons c1 r1 =>
      by_cases h : c0 = c1
      · simp only [byte_scan, if_pos h] at h0 h1 ⊢
        simpa using ih r1 (by simpa using h0) (by simpa using h1)
      · simp [byte_scan, if_neg h, h]

theorem byte_scan_le_of_ne (b0 b1 : List Nat) (m : Nat)
    (h : b0[m]? ≠ b1[m]?) : byte_scan b0 b1 ≤ m := by
  by_contra hc
  exact h (byte_scan_agree b0 b1 m (by omega))

theorem byte_scan_ge (b0 b1 : List Nat) (m : Nat)
    (h0 : m ≤ b0.length) (h1 : m ≤ b1.length)
    (h : ∀ j, j < m → b0[j]? = b1[j]?) : m ≤ byte_scan b0 b1 := by
  induction b0 generalizing b1 m with
  | nil =>
    simp at h0
    omega
  | cons c0 r0 ih =>
    cases b1 with
    | nil =>
      simp at h1
      omega
    | cons c1 r1 =>
      cases m with
      | zero => omega
      | succ m =>
        have hc : c0 = c1 := by
          have := h 0 (by omega)
          simpa using this
        simp only [byte_scan, if_pos hc]
        have := ih r1 m (by simpa using h0) (by simpa using h1)
          (fun j hj => by simpa using h (j + 1) (by omega))
        omega

theorem byte_scan_self (l : List Nat) : byte_scan l l = l.length := by
  have h1 := byte_scan_le l l
  have h2 := byte_scan_ge l l l.length (le_refl _) (le_refl _) (fun _ _ => rfl)
  omega

/-- Decomposing `byte_scan` at an equal chunk of length `W`. -/
theorem byte_scan_take_eq (W : Nat) (b0 b1 : List Nat)
    (h0 : W ≤ b0.length) (h1 : W ≤ b1.length) (ht : b0.take W = b1.take W) :
    byte_scan b0 b1 = W + byte_scan (b0.drop W) (b1.drop W) := by
  induction W generalizing b0 b1 with
  | zero => simp
  | succ W ih =>
    cases b0 with
    | nil => simp at h0
    | cons c0 r0 =>
      cases b1 with
      | nil => simp at h1
      | cons c1 r1 =>
        simp only [List.take_succ_cons, List.cons.injEq] at ht
        simp only [byte_scan, if_pos ht.1, List.drop_succ_cons]
        rw [ih r0 r1 (by simpa using h0) (by simpa using h1) ht.2]
        omega

/-- The word-wise scan computes exactly what the byte-wise scan computes. -/
theorem block_compare_eq_byte_scan (W : Nat) (b0 b1 : List Nat) :
    block_compare W b0 b1 = byte_scan b0 b1 := by
  induction b0, b1 using block_compare.induct W with
  | case1 b0 b1 h ih =>
    obtain ⟨hW, h0, h1, ht⟩ := h
    rw [block_compare, dif_pos ⟨hW, h0, h1, ht⟩, ih,
      byte_scan_take_eq W b0 b1 h0 h1 ht]
  | case2 b0 b1 h =>
    rw [block_compare, dif_neg h]

/-! ### Newline counting -/

theorem nl_count_append (l1 l2 : List Nat) :
    nl_count (l1 ++ l2) = nl_count l1 + nl_count l2 := by
  induction l1 with
  | nil => simp [nl_count]
  | cons b r ih => simp [nl_count, ih]; omega

/-- The XOR-against-`nnnn` zero-byte count of a word equals the number of
newline bytes in it. -/
theorem zero_byte_count_xor (l : List Nat) (n : Nat) (h : l.length ≤ n) :
    zero_byte_count (List.zipWith (fun a b => a ^^^ b) l (List.replicate n 10))
      = nl_count l := by
  induction l generalizing n with
  | nil => simp [zero_byte_count, nl_count]
  | cons b r ih =>
    cases n with
    | zero => simp at h
    | succ n =>
      simp only [List.replicate_succ, List.zipWith_cons_cons, zero_byte_count, nl_count,
        ih n (by simpa using h)]
      congr 1
      simp [Nat.xor_eq_zero]

theorem byte_scan_count_fst (b0 b1 : List Nat) :
    (byte_scan_count b0 b1).1 = byte_scan b0 b1 := by
  induction b0 generalizing b1 with
  | nil => cases b1 <;> rfl
  | cons c0 r0 ih =>
    cases b1 with
    | nil => rfl
    | cons c1 r1 =>
      by_cases h : c0 = c1
      · simp [byte_scan_count, byte_scan, if_pos h, ih r1]
      · simp [byte_scan_count, byte_scan, if_neg h]

theorem byte_scan_count_snd (b0 b1 : List Nat) :
    (byte_scan_count b0 b1).2 = nl_count (b0.take (byte_scan b0 b1)) := by
  induction b0 generalizing b1 with
  | nil => cases b1 <;> rfl
  | cons c0 r0 ih =>
    cases b1 with
    | nil => rfl
    | cons c1 r1 =>
      by_cases h : c0 = c1
      · simp only [byte_scan_count, byte_scan, if_pos h, ih r1, List.take_succ_cons, nl_count]
        omega
      · simp [byte_scan_count, byte_scan, if_neg h, nl_count]

/-- Both entry points find the same first-difference offset. -/
theorem block_compare_and_count_fst (W : Nat) (b0 b1 : List Nat) :
    (block_compare_and_count W b0 b1).1 = block_compare W b0 b1 := by
  induction b0, b1 using block_compare_and_count.induct W with
  | case1 b0 b1 h ih =>
    rw [block_compare_and_count, dif_pos h, block_compare, dif_pos h]
    simpa using ih
  | case2 b0 b1 h =>
    rw [block_compare_and_count, dif_neg h, block_compare, dif_neg h,
      byte_scan_count_fst]

/-- The counting entry point counts exactly the newlines strictly before the
returned offset. -/
theorem block_compare_and_count_snd (W : Nat) (b0 b1 : List Nat) :
    (block_compare_and_count W b0 b1).2
      = nl_count (b0.take (block_compare W b0 b1)) := by
  induction b0, b1 using block_compare_and_count.induct W with
  | case1 b0 b1 h ih =>
    obtain ⟨hW, h0, h1, ht⟩ := h
    rw [block_compare_and_count, dif_pos ⟨hW, h0, h1, ht⟩,
      block_compare, dif_pos ⟨hW, h0, h1, ht⟩]
    simp only [ih, List.take_add, nl_count_append,
      zero_byte_count_xor (b0.take W) W (by simp)]
  | case2 b0 b1 h =>
    rw [block_compare_and_count, dif_neg h, block_compare, dif_neg h,
      byte_scan_count_snd]

/-! ### Sentinels -/

theorem compl_byte_ne (b : Nat) : compl_byte b ≠ b := by
  unfold compl_byte
  omega

/-- After the sentinel writes there is a guaranteed mismatch at the shorter
read length. -/
theorem add_sentinels_ne (b0 b1 : List Nat) (r0 r1 : Nat)
    (h00 : r0 < b0.length) (h01 : r0 < b1.length)
    (h10 : r1 < b0.length) (h11 : r1 < b1.length) :
    (add_sentinels b0 b1 r0 r1).1[min r0 r1]?
      ≠ (add_sentinels b0 b1 r0 r1).2[min r0 r1]? := by
  unfold add_sentinels
  rcases Nat.lt_trichotomy r0 r1 with hlt | heq | hgt
  · have hmin : min r0 r1 = r0 := by omega
    rw [hmin, List.getElem?_set_self (by simpa using h00),
      List.getElem?_set_ne (by omega : r1 ≠ r0), List.getElem?_eq_getElem h01]
    simp only [List.getD_eq_getElem?_getD, List.getElem?_eq_getElem h01, Option.getD_some,
      ne_eq, Option.some.injEq]
    exact compl_byte_ne _
  · subst heq
    have hmin : min r0 r0 = r0 := by omega
    rw [hmin, List.getElem?_set_self (by simpa using h00),
      List.getElem?_set_self (by simpa using h11)]
    have hget : (b0.set r0 (compl_byte (b1.getD r0 0))).getD r0 0
        = compl_byte (b1.getD r0 0) := by
      simp only [List.getD_eq_getElem?_getD, List.getElem?_set_self (by simpa using h00),
        Option.getD_some]
    rw [hget]
    simp only [ne_eq, Option.some.injEq]
    unfold compl_byte
    omega
  · have hmin : min r0 r1 = r1 := by omega
    rw [hmin, List.getElem?_set_ne (by omega : r0 ≠ r1),
      List.getElem?_set_self (by simpa using h11)]
    have hget : (b0.set r0 (compl_byte (b1.getD r0 0))).getD r1 0 = b0.getD r1 0 := by
      simp only [List.getD_eq_getElem?_getD, List.getElem?_set_ne (by omega : r0 ≠ r1)]
    rw [hget, List.getElem?_eq_getElem h10]
    simp only [List.getD_eq_getElem?_getD, List.getElem?_eq_getElem h10, Option.getD_some,
      ne_eq, Option.some.injEq]
    exact fun h => compl_byte_ne _ h.symm

/-- Below both read lengths the sentinel writes change nothing. -/
theorem add_sentinels_agree (b0 b1 : List Nat) (r0 r1 j : Nat)
    (hj0 : j < r0) (hj1 : j < r1) :
    (add_sentinels b0 b1 r0 r1).1[j]? = b0[j]?
      ∧ (add_sentinels b0 b1 r0 r1).2[j]? = b1[j]? :=
  ⟨List.getElem?_set_ne (by omega), List.getElem?_set_ne (by omega)⟩

/-- Core behaviour of `block_compare` on sentinel-prepared buffers: the
result is at most the shorter read length, the bytes before it agree, the
bytes at it differ, and buffers that agree over the whole shorter read
length give exactly that read length. -/
theorem sentinel_exact (W r0 r1 : Nat) (b0 b1 : List Nat)
    (h00 : r0 < b0.length) (h01 : r0 < b1.length)
    (h10 : r1 < b0.length) (h11 : r1 < b1.length) :
    block_compare W (add_sentinels b0 b1 r0 r1).1 (add_sentinels b0 b1 r0 r1).2
        ≤ min r0 r1
    ∧ (∀ j, j < block_compare W (add_sentinels b0 b1 r0 r1).1 (add_sentinels b0 b1 r0 r1).2 →
        (add_sentinels b0 b1 r0 r1).1[j]? = (add_sentinels b0 b1 r0 r1).2[j]?)
    ∧ (add_sentinels b0 b1 r0 r1).1[block_compare W (add_sentinels b0 b1 r0 r1).1
          (add_sentinels b0 b1 r0 r1).2]?
        ≠ (add_sentinels b0 b1 r0 r1).2[block_compare W (add_sentinels b0 b1 r0 r1).1
          (add_sentinels b0 b1 r0 r1).2]?
    ∧ ((∀ j, j < min r0 r1 → b0[j]? = b1[j]?) →
        block_compare W (add_sentinels b0 b1 r0 r1).1 (add_sentinels b0 b1 r0 r1).2
          = min r0 r1) := by
  have hL1 : (add_sentinels b0 b1 r0 r1).1.length = b0.length := by
    simp [add_sentinels]
  have hL2 : (add_sentinels b0 b1 r0 r1).2.length = b1.length := by
    simp [add_sentinels]
  rw [block_compare_eq_byte_scan]
  have hne := add_sentinels_ne b0 b1 r0 r1 h00 h01 h10 h11
  have hle := byte_scan_le_of_ne _ _ (min r0 r1) hne
  refine ⟨hle, byte_scan_agree _ _, byte_scan_ne _ _ (by omega) (by omega), ?_⟩
  intro hagree
  have hge := byte_scan_ge (add_sentinels b0 b1 r0 r1).1 (add_sentinels b0 b1 r0 r1).2
    (min r0 r1) (by omega) (by omega) ?_
  · omega
  · intro j hj
    have h := add_sentinels_agree b0 b1 r0 r1 j (by omega) (by omega)
    rw [h.1, h.2]
    exact hagree j hj

/-! ### From sentinel buffers back to bare blocks

In `cmp_loop` the buffers are the read block plus an unspecified tail plus
the sentinel; the following lemmas show the comparison results only depend
on the read blocks. -/

theorem add_sentinels_length (b0 b1 : List Nat) (r0 r1 : Nat) :
    (add_sentinels b0 b1 r0 r1).1.length = b0.length
      ∧ (add_sentinels b0 b1 r0 r1).2.length = b1.length := by
  simp [add_sentinels]

theorem sent_getElem (blk0 blk1 : List Nat) (B r0 r1 j : Nat)
    (hr0 : blk0.length = r0) (hr1 : blk1.length = r1)
    (hj0 : j < r0) (hj1 : j < r1) :
    (add_sentinels (blk0 ++ List.replicate (B + 1 - r0) 0)
        (blk1 ++ List.replicate (B + 1 - r1) 0) r0 r1).1[j]? = blk0[j]?
    ∧ (add_sentinels (blk0 ++ List.replicate (B + 1 - r0) 0)
        (blk1 ++ List.replicate (B + 1 - r1) 0) r0 r1).2[j]? = blk1[j]? := by
  have h := add_sentinels_agree (blk0 ++ List.replicate (B + 1 - r0) 0)
    (blk1 ++ List.replicate (B + 1 - r1) 0) r0 r1 j hj0 hj1
  exact ⟨h.1.trans (List.getElem?_append_left (by omega)),
    h.2.trans (List.getElem?_append_left (by omega))⟩

theorem sent_byte_scan (blk0 blk1 : List Nat) (B r0 r1 : Nat)
    (hr0 : blk0.length = r0) (hr1 : blk1.length = r1)
    (h0 : r0 ≤ B) (h1 : r1 ≤ B) :
    byte_scan (add_sentinels (blk0 ++ List.replicate (B + 1 - r0) 0)
        (blk1 ++ List.replicate (B + 1 - r1) 0) r0 r1).1
      (add_sentinels (blk0 ++ List.replicate (B + 1 - r0) 0)
        (blk1 ++ List.replicate (B + 1 - r1) 0) r0 r1).2
      = byte_scan blk0 blk1 := by
  have hdle : byte_scan blk0 blk1 ≤ min r0 r1 := by
    have := byte_scan_le blk0 blk1
    omega
  have hlen := add_sentinels_length (blk0 ++ List.replicate (B + 1 - r0) 0)
    (blk1 ++ List.replicate (B + 1 - r1) 0) r0 r1
  have hlen1 : (add_sentinels (blk0 ++ List.replicate (B + 1 - r0) 0)
      (blk1 ++ List.replicate (B + 1 - r1) 0) r0 r1).1.length = B + 1 := by
    rw [hlen.1]
    simp
    omega
  have hlen2 : (add_sentinels (blk0 ++ List.replicate (B + 1 - r0) 0)
      (blk1 ++ List.replicate (B + 1 - r1) 0) r0 r1).2.length = B + 1 := by
    rw [hlen.2]
    simp
    omega
  have hge := byte_scan_ge (add_sentinels (blk0 ++ List.replicate (B + 1 - r0) 0)
      (blk1 ++ List.replicate (B + 1 - r1) 0) r0 r1).1
    (add_sentinels (blk0 ++ List.replicate (B + 1 - r0) 0)
      (blk1 ++ List.replicate (B + 1 - r1) 0) r0 r1).2
    (byte_scan blk0 blk1) (by omega) (by omega) ?agree
  case agree =>
    intro j hj
    have hg := sent_getElem blk0 blk1 B r0 r1 j hr0 hr1 (by omega) (by omega)
    rw [hg.1, hg.2]
    exact byte_scan_agree blk0 blk1 j hj
  have hle : byte_scan (add_sentinels (blk0 ++ List.replicate (B + 1 - r0) 0)
      (blk1 ++ List.replicate (B + 1 - r1) 0) r0 r1).1
      (add_sentinels (blk0 ++ List.replicate (B + 1 - r0) 0)
        (blk1 ++ List.replicate (B + 1 - r1) 0) r0 r1).2 ≤ byte_scan blk0 blk1 := by
    apply byte_scan_le_of_ne
    rcases Nat.lt_or_ge (byte_scan blk0 blk1) (min r0 r1) with hlt | hge2
    · have hg := sent_getElem blk0 blk1 B r0 r1 (byte_scan blk0 blk1) hr0 hr1
        (by omega) (by omega)
      rw [hg.1, hg.2]
      exact byte_scan_ne blk0 blk1 (by omega) (by omega)
    · have heq : byte_scan blk0 blk1 = min r0 r1 := by omega
      rw [heq]
      exact add_sentinels_ne _ _ r0 r1 (by simp; omega) (by simp; omega)
        (by simp; omega) (by simp; omega)
  omega

theorem sent_take (blk0 blk1 : List Nat) (B r0 r1 d : Nat)
    (hr0 : blk0.length = r0) (hr1 : blk1.length = r1)
    (hd : d ≤ min r0 r1) :
    (add_sentinels (blk0 ++ List.replicate (B + 1 - r0) 0)
        (blk1 ++ List.replicate (B + 1 - r1) 0) r0 r1).1.take d = blk0.take d := by
  apply List.ext_getElem?
  intro j
  by_cases hj : j < d
  · rw [List.getElem?_take_of_lt hj, List.getElem?_take_of_lt hj]
    exact (sent_getElem blk0 blk1 B r0 r1 j hr0 hr1 (by omega) (by omega)).1
  · rw [List.getElem?_eq_none (by simp; omega), List.getElem?_eq_none (by simp; omega)]

theorem sent_getD (blk0 blk1 : List Nat) (B r0 r1 j : Nat)
    (hr0 : blk0.length = r0) (hr1 : blk1.length = r1)
    (hj0 : j < r0) (hj1 : j < r1) :
    (add_sentinels (blk0 ++ List.replicate (B + 1 - r0) 0)
        (blk1 ++ List.replicate (B + 1 - r1) 0) r0 r1).1.getD j 0 = blk0.getD j 0
    ∧ (add_sentinels (blk0 ++ List.replicate (B + 1 - r0) 0)
        (blk1 ++ List.replicate (B + 1 - r1) 0) r0 r1).2.getD j 0 = blk1.getD j 0 := by
  have h := sent_getElem blk0 blk1 B r0 r1 j hr0 hr1 hj0 hj1
  constructor
  · simp only [List.getD_eq_getElem?_getD, h.1]
  · simp only [List.getD_eq_getElem?_getD, h.2]

theorem all_diffs_lines_congr (u0 u1 v0 v1 : List Nat) (m : Nat)
    (hg : ∀ j, j < m → u0.getD j 0 = v0.getD j 0 ∧ u1.getD j 0 = v1.getD j 0)
    (c i : Nat) : all_diffs_lines u0 u1 c i m = all_diffs_lines v0 v1 c i m := by
  have H : ∀ k c i, m - i ≤ k →
      all_diffs_lines u0 u1 c i m = all_diffs_lines v0 v1 c i m := by
    intro k
    induction k with
    | zero =>
      intro c i hk
      conv_lhs => rw [all_diffs_lines.eq_def]
      conv_rhs => rw [all_diffs_lines.eq_def]
      simp only [dif_neg (show ¬ i < m by omega)]
    | succ k ih =>
      intro c i hk
      conv_lhs => rw [all_diffs_lines.eq_def]
      conv_rhs => rw [all_diffs_lines.eq_def]
      by_cases hi : i < m
      · simp only [dif_pos hi]
        rw [ih (c + 1) (i + 1) (by omega), (hg i hi).1, (hg i hi).2]
      · simp only [dif_neg hi]
  exact H (m - i) c i (le_refl _)

/-- One unfolding step: `cmp_loop` agrees with `cmp_loop_simple` on the
current block, given agreement on the remaining streams. -/
theorem cmp_loop_step (ct : CompType) (W B : Nat) (in0 in1 : List Nat) (c l ret : Nat)
    (hrec : 0 < B ∧ min B in0.length = B → ∀ c2 l2 r2,
      cmp_loop ct W B c2 l2 r2 (in0.drop B) (in1.drop B)
        = cmp_loop_simple ct B c2 l2 r2 (in0.drop B) (in1.drop B)) :
    cmp_loop ct W B c l ret in0 in1 = cmp_loop_simple ct B c l ret in0 in1 := by
  have hr0 : (in0.take B).length = min B in0.length := by simp
  have hr1 : (in1.take B).length = min B in1.length := by simp
  have hble : byte_scan (in0.take B) (in1.take B)
      ≤ min (min B in0.length) (min B in1.length) := by
    have h := byte_scan_le (in0.take B) (in1.take B)
    rw [hr0, hr1] at h
    exact h
  conv_lhs => rw [cmp_loop.eq_def]
  conv_rhs => rw [cmp_loop_simple.eq_def]
  dsimp only
  rw [block_compare_and_count_fst, block_compare_and_count_snd,
    block_compare_eq_byte_scan,
    sent_byte_scan (in0.take B) (in1.take B) B (min B in0.length) (min B in1.length)
      hr0 hr1 (by omega) (by omega),
    ite_self,
    sent_take (in0.take B) (in1.take B) B (min B in0.length) (min B in1.length)
      (byte_scan (in0.take B) (in1.take B)) hr0 hr1 hble,
    all_diffs_lines_congr _ _ (in0.take B) (in1.take B)
      (min (min B in0.length) (min B in1.length))
      (fun j hj => sent_getD (in0.take B) (in1.take B) B
        (min B in0.length) (min B in1.length) j hr0 hr1 (by omega) (by omega))]
  by_cases hd1 : byte_scan (in0.take B) (in1.take B)
      < min (min B in0.length) (min B in1.length) ∧ ct = CompType.type_first_diff
  · rw [if_pos hd1, if_pos hd1,
      (sent_getD (in0.take B) (in1.take B) B (min B in0.length) (min B in1.length)
        (byte_scan (in0.take B) (in1.take B)) hr0 hr1 (by omega) (by omega)).1,
      (sent_getD (in0.take B) (in1.take B) B (min B in0.length) (min B in1.length)
        (byte_scan (in0.take B) (in1.take B)) hr0 hr1 (by omega) (by omega)).2]
  · rw [if_neg hd1, if_neg hd1]
    by_cases hd2 : byte_scan (in0.take B) (in1.take B)
        < min (min B in0.length) (min B in1.length) ∧ ct = CompType.type_status
    · rw [if_pos hd2, if_pos hd2]
    · rw [if_neg hd2, if_neg hd2]
      by_cases hne : ¬ min B in0.length = min B in1.length
      · rw [if_pos hne, if_pos hne]
      · rw [if_neg hne, if_neg hne]
        by_cases hc2 : 0 < B ∧ min B in0.length = B
        · rw [dif_pos hc2, dif_pos hc2, hrec hc2]
        · rw [dif_neg hc2, dif_neg hc2]

/-- The driver loop computed with the word-wise comparators and sentinel
buffers equals its byte-level restatement. -/
theorem cmp_loop_eq_simple (ct : CompType) (W B : Nat) (in0 in1 : List Nat)
    (c l ret : Nat) :
    cmp_loop ct W B c l ret in0 in1 = cmp_loop_simple ct B c l ret in0 in1 := by
  have H : ∀ n (in0 in1 : List Nat) (c l ret : Nat), in0.length < n →
      cmp_loop ct W B c l ret in0 in1 = cmp_loop_simple ct B c l ret in0 in1 := by
    intro n
    induction n with
    | zero => intro in0 in1 c l ret h; omega
    | succ n ih =>
      intro in0 in1 c l ret h
      apply cmp_loop_step
      intro hcond c2 l2 r2
      apply ih
      simp only [List.length_drop]
      omega
  exact H (in0.length + 1) in0 in1 c l ret (by omega)

/-! ### Behaviour of the driver loop -/

/-- A full block on which both streams agree: the loop just advances. -/
theorem cmp_loop_simple_step_eq (ct : CompType) (B c l ret : Nat) (i0 i1 : List Nat)
    (hB : 0 < B) (h0 : B ≤ i0.length) (h1 : B ≤ i1.length)
    (ht : i0.take B = i1.take B) :
    cmp_loop_simple ct B c l ret i0 i1
      = cmp_loop_simple ct B (c + B)
          (l + if ct = CompType.type_first_diff then nl_count (i0.take B) else 0) ret
          (i0.drop B) (i1.drop B) := by
  have hfd : byte_scan (i0.take B) (i1.take B) = B := by
    rw [ht, byte_scan_self, List.length_take]
    omega
  have hm0 : min B i0.length = B := by omega
  have hm1 : min B i1.length = B := by omega
  conv_lhs => rw [cmp_loop_simple.eq_def]
  dsimp only
  rw [hfd, hm0, hm1, Nat.min_self]
  rw [if_neg (fun hh => Nat.lt_irrefl B hh.1),
    if_neg (fun hh => Nat.lt_irrefl B hh.1),
    if_neg (Nat.lt_irrefl B),
    if_neg (fun hh : ¬ B = B => hh rfl),
    dif_pos ⟨hB, rfl⟩]
  simp only [Nat.sub_self, Nat.add_zero, List.nil_append, List.take_take, Nat.min_self,
    if_neg (Nat.lt_irrefl B)]

/-- Identical streams drive the loop to `(ret, no output)` in every mode. -/
theorem cmp_loop_simple_self (ct : CompType) (B : Nat) (hB : 0 < B) :
    ∀ (i : List Nat) (c l ret : Nat), cmp_loop_simple ct B c l ret i i = (ret, []) := by
  have H : ∀ n (i : List Nat) (c l ret : Nat), i.length < n →
      cmp_loop_simple ct B c l ret i i = (ret, []) := by
    intro n
    induction n with
    | zero => intro i c l ret h; omega
    | succ n ih =>
      intro i c l ret h
      by_cases hlen : B ≤ i.length
      · rw [cmp_loop_simple_step_eq ct B c l ret i i hB hlen hlen rfl]
        apply ih
        simp only [List.length_drop]
        omega
      · conv_lhs => rw [cmp_loop_simple.eq_def]
        dsimp only
        have hfd : byte_scan (i.take B) (i.take B) = i.length := by
          rw [byte_scan_self, List.length_take]
          omega
        have hm : min B i.length = i.length := by omega
        have hc2 : ¬ (0 < B ∧ min B i.length = B) := by omega
        rw [hfd, hm, Nat.min_self]
        rw [if_neg (fun hh => Nat.lt_irrefl _ hh.1),
          if_neg (fun hh => Nat.lt_irrefl _ hh.1),
          if_neg (Nat.lt_irrefl _),
          if_neg (fun hh : ¬ i.length = i.length => hh rfl)]
        rw [hm] at hc2
        rw [dif_neg hc2, if_neg (Nat.lt_irrefl _)]
  intro i c l ret
  exact H (i.length + 1) i c l ret (by omega)

theorem take_append_le {l1 l2 : List Nat} {n : Nat} (h : n ≤ l1.length) :
    (l1 ++ l2).take n = l1.take n := by
  rw [List.take_append_eq_append_take, Nat.sub_eq_zero_of_le h]
  simp

theorem drop_append_le {l1 l2 : List Nat} {n : Nat} (h : n ≤ l1.length) :
    (l1 ++ l2).drop n = l1.drop n ++ l2 := by
  rw [List.drop_append_eq_append_drop, Nat.sub_eq_zero_of_le h]
  simp

theorem byte_scan_append_ne (p u v : List Nat) (a b : Nat) (hab : a ≠ b) :
    byte_scan (p ++ a :: u) (p ++ b :: v) = p.length := by
  induction p with
  | nil => simp [byte_scan, hab]
  | cons x q ih => simp [byte_scan, ih]

theorem getD_append_length (p u : List Nat) (a d : Nat) :
    (p ++ a :: u).getD p.length d = a := by
  rw [List.getD_eq_getElem?_getD, List.getElem?_append_right (le_refl _)]
  simp

/-- In first-difference mode, a mismatch of `a` against `b` after a common
block-spanning prefix `p` makes the loop stop with one report carrying the
accumulated character and line counters. -/
theorem cmp_loop_simple_first_diff (B : Nat) (hB : 0 < B) :
    ∀ (p r0 r1 : List Nat) (a b c l ret : Nat), a ≠ b →
      cmp_loop_simple CompType.type_first_diff B c l ret (p ++ a :: r0) (p ++ b :: r1)
        = (1, [Event.first_diff_report (c + p.length) (l + nl_count p) a b]) := by
  have H : ∀ n (p r0 r1 : List Nat) (a b c l ret : Nat), p.length < n → a ≠ b →
      cmp_loop_simple CompType.type_first_diff B c l ret (p ++ a :: r0) (p ++ b :: r1)
        = (1, [Event.first_diff_report (c + p.length) (l + nl_count p) a b]) := by
    intro n
    induction n with
    | zero =>
      intro p _ _ _ _ _ _ _ h _
      omega
    | succ n ih =>
      intro p r0 r1 a b c l ret hn hab
      by_cases hlen : B ≤ p.length
      · rw [cmp_loop_simple_step_eq _ B c l ret _ _ hB
          (by simp; omega) (by simp; omega)
          (by rw [take_append_le hlen, take_append_le hlen]),
          drop_append_le hlen, drop_append_le hlen,
          ih (p.drop B) r0 r1 a b (c + B) _ ret (by simp; omega) hab]
        have hc : c + B + (p.drop B).length = c + p.length := by
          simp
          omega
        have hl : (l + if CompType.type_first_diff = CompType.type_first_diff
              then nl_count ((p ++ a :: r0).take B) else 0) + nl_count (p.drop B)
            = l + nl_count p := by
          rw [if_pos rfl, take_append_le hlen]
          have hnl := nl_count_append (p.take B) (p.drop B)
          rw [List.take_append_drop] at hnl
          omega
        rw [hc, hl]
      · push_neg at hlen
        conv_lhs => rw [cmp_loop_simple.eq_def]
        dsimp only
        have hsplit : B - p.length = (B - p.length - 1) + 1 := by omega
        have hblk0 : (p ++ a :: r0).take B = p ++ a :: r0.take (B - p.length - 1) := by
          rw [List.take_append_eq_append_take, List.take_of_length_le (by omega), hsplit,
            List.take_succ_cons, Nat.add_sub_cancel]
        have hblk1 : (p ++ b :: r1).take B = p ++ b :: r1.take (B - p.length - 1) := by
          rw [List.take_append_eq_append_take, List.take_of_length_le (by omega), hsplit,
            List.take_succ_cons, Nat.add_sub_cancel]
        rw [hblk0, hblk1, byte_scan_append_ne p _ _ a b hab]
        rw [if_pos (⟨by simp only [List.length_append, List.length_cons]; omega, rfl⟩ :
          p.length < min (min B (p ++ a :: r0).length) (min B (p ++ b :: r1).length)
            ∧ CompType.type_first_diff = CompType.type_first_diff)]
        rw [if_pos rfl, List.take_left' rfl, getD_append_length, getD_append_length]
  intro p r0 r1 a b c l ret hab
  exact H (p.length + 1) p r0 r1 a b c l ret (by omega) hab

theorem eq_of_byte_scan_full (u v : List Nat) (h0 : u.length ≤ byte_scan u v)
    (h1 : v.length = u.length) : u = v := by
  apply List.ext_getElem?
  intro j
  by_cases hj : j < u.length
  · exact byte_scan_agree u v j (by omega)
  · rw [List.getElem?_eq_none (by omega), List.getElem?_eq_none (by omega)]

/-- The exit status of the loop: `ret` when the remaining streams are
identical, 1 otherwise — in every mode. -/
theorem cmp_loop_simple_fst (ct : CompType) (B : Nat) (hB : 0 < B) :
    ∀ (i0 i1 : List Nat) (c l ret : Nat),
      (cmp_loop_simple ct B c l ret i0 i1).1 = if i0 = i1 then ret else 1 := by
  have H : ∀ n (i0 i1 : List Nat) (c l ret : Nat), i0.length < n →
      (cmp_loop_simple ct B c l ret i0 i1).1 = if i0 = i1 then ret else 1 := by
    intro n
    induction n with
    | zero =>
      intro i0 _ _ _ _ h
      omega
    | succ n ih =>
      intro i0 i1 c l ret hn
      by_cases h1 : B ≤ i0.length ∧ B ≤ i1.length ∧ i0.take B = i1.take B
      · rw [cmp_loop_simple_step_eq ct B c l ret i0 i1 hB h1.1 h1.2.1 h1.2.2,
          ih _ _ _ _ _ (by simp only [List.length_drop]; omega)]
        have hiff : (i0.drop B = i1.drop B) ↔ (i0 = i1) := by
          constructor
          · intro hd
            rw [← List.take_append_drop B i0, ← List.take_append_drop B i1, h1.2.2, hd]
          · intro he
            rw [he]
        by_cases he : i0 = i1
        · rw [if_pos (hiff.mpr he), if_pos he]
        · rw [if_neg (fun hd => he (hiff.mp hd)), if_neg he]
      · have hne_of : byte_scan (i0.take B) (i1.take B)
            < min (min B i0.length) (min B i1.length) → i0 ≠ i1 := by
          intro hlt heq
          rw [heq, byte_scan_self, List.length_take] at hlt
          omega
        have hfdle : byte_scan (i0.take B) (i1.take B)
            ≤ min (min B i0.length) (min B i1.length) := by
          have h := byte_scan_le (i0.take B) (i1.take B)
          simp only [List.length_take] at h
          omega
        conv_lhs => rw [cmp_loop_simple.eq_def]
        dsimp only
        by_cases hA : byte_scan (i0.take B) (i1.take B)
            < min (min B i0.length) (min B i1.length) ∧ ct = CompType.type_first_diff
        · rw [if_pos hA]
          dsimp only
          rw [if_neg (hne_of hA.1)]
        · rw [if_neg hA]
          by_cases hS : byte_scan (i0.take B) (i1.take B)
              < min (min B i0.length) (min B i1.length) ∧ ct = CompType.type_status
          · rw [if_pos hS]
            dsimp only
            rw [if_neg (hne_of hS.1)]
          · rw [if_neg hS]
            by_cases hRn : ¬ (min B i0.length = min B i1.length)
            · rw [if_pos hRn]
              dsimp only
              rw [if_neg (fun heq : i0 = i1 => hRn (by rw [heq]))]
            · rw [if_neg hRn]
              push_neg at hRn
              by_cases h2 : 0 < B ∧ min B i0.length = B
              · rw [dif_pos h2]
                dsimp only
                by_cases hlt : byte_scan (i0.take B) (i1.take B)
                    < min (min B i0.length) (min B i1.length)
                · rw [ih _ _ _ _ _ (by simp only [List.length_drop]; omega), if_pos hlt,
                    ite_self, if_neg (hne_of hlt)]
                · exfalso
                  apply h1
                  have hb0 : B ≤ i0.length := by omega
                  have hb1 : B ≤ i1.length := by omega
                  refine ⟨hb0, hb1, ?_⟩
                  apply eq_of_byte_scan_full
                  · simp only [List.length_take]
                    omega
                  · simp only [List.length_take]
                    omega
              · rw [dif_neg h2]
                dsimp only
                by_cases hlt : byte_scan (i0.take B) (i1.take B)
                    < min (min B i0.length) (min B i1.length)
                · rw [if_pos hlt, if_neg (hne_of hlt)]
                · rw [if_neg hlt]
                  have hlen0 : i0.length < B := by omega
                  have hlen1 : i1.length = i0.length := by omega
                  have heq : i0 = i1 := by
                    have ht0 : i0.take B = i0 := List.take_of_length_le (by omega)
                    have ht1 : i1.take B = i1 := List.take_of_length_le (by omega)
                    rw [ht0, ht1] at hlt
                    exact eq_of_byte_scan_full i0 i1 (by omega) hlen1
                  rw [if_pos heq]
  intro i0 i1 c l ret
  exact H (i0.length + 1) i0 i1 c l ret (by omega)

theorem byte_scan_self_append (l u : List Nat) : byte_scan l (l ++ u) = l.length := by
  induction l with
  | nil => simp [byte_scan_nil_left]
  | cons x q ih => simp [byte_scan, ih]

/-- When stream 0 is a strict prefix of stream 1, the loop ends with the
EOF diagnostic naming stream 0 (exit status 1); status mode stays silent. -/
theorem cmp_loop_simple_strict (ct : CompType) (B : Nat) (hB : 0 < B) :
    ∀ (i0 d : List Nat) (c l ret : Nat), d ≠ [] →
      cmp_loop_simple ct B c l ret i0 (i0 ++ d)
        = (1, if ct = CompType.type_status then [] else [Event.eof_on 0]) := by
  have H : ∀ n (i0 d : List Nat) (c l ret : Nat), i0.length < n → d ≠ [] →
      cmp_loop_simple ct B c l ret i0 (i0 ++ d)
        = (1, if ct = CompType.type_status then [] else [Event.eof_on 0]) := by
    intro n
    induction n with
    | zero =>
      intro i0 _ _ _ _ h _
      omega
    | succ n ih =>
      intro i0 d c l ret hn hdne
      by_cases hlen : B ≤ i0.length
      · rw [cmp_loop_simple_step_eq ct B c l ret i0 (i0 ++ d) hB hlen
          (by simp only [List.length_append]; omega) (by rw [take_append_le hlen]),
          drop_append_le hlen,
          ih (i0.drop B) d _ _ _ (by simp only [List.length_drop]; omega) hdne]
      · push_neg at hlen
        have hd : 0 < d.length := List.length_pos.mpr hdne
        have ht0 : i0.take B = i0 := List.take_of_length_le (by omega)
        have ht1 : (i0 ++ d).take B = i0 ++ d.take (B - i0.length) := by
          rw [List.take_append_eq_append_take, ht0]
        have hsm : min (min B i0.length) (min B (i0 ++ d).length) = i0.length := by
          simp only [List.length_append]
          omega
        have hne12 : ¬ min B i0.length = min B (i0 ++ d).length := by
          simp only [List.length_append]
          omega
        conv_lhs => rw [cmp_loop_simple.eq_def]
        dsimp only
        rw [ht0, ht1, byte_scan_self_append, hsm]
        rw [if_neg (fun hh => Nat.lt_irrefl _ hh.1),
          if_neg (fun hh => Nat.lt_irrefl _ hh.1),
          if_neg (Nat.lt_irrefl _),
          if_pos hne12]
        have hlt10 : ¬ min B (i0 ++ d).length < min B i0.length := by
          simp only [List.length_append]
          omega
        rw [if_neg hlt10]
        simp only [List.nil_append]
  intro i0 d c l ret hdne
  exact H (i0.length + 1) i0 d c l ret (by omega) hdne

/-! ### The `-l` listing -/

theorem getD_take_of_lt (l : List Nat) (B j : Nat) (hj : j < B) :
    (l.take B).getD j 0 = l.getD j 0 := by
  simp only [List.getD_eq_getElem?_getD, List.getElem?_take_of_lt hj]

theorem getD_drop (l : List Nat) (B j : Nat) :
    (l.drop B).getD j 0 = l.getD (B + j) 0 := by
  simp only [List.getD_eq_getElem?_getD, List.getElem?_drop]

/-- The inner `-l` loop enumerated as a `filterMap` over the positions it
visits, provided `char_number` arrives in sync with the position. -/
theorem all_diffs_lines_eq_range (u0 u1 : List Nat) (m : Nat) :
    ∀ (k c i : Nat), m - i ≤ k →
      all_diffs_lines u0 u1 (c + i) i m
        = (List.range' i (m - i)).filterMap (fun j =>
            if u0.getD j 0 = u1.getD j 0 then none
            else some (Event.diff_line (c + j) (u0.getD j 0) (u1.getD j 0))) := by
  intro k
  induction k with
  | zero =>
    intro c i hk
    conv_lhs => rw [all_diffs_lines.eq_def]
    rw [dif_neg (by omega : ¬ i < m), (by omega : m - i = 0)]
    rfl
  | succ k ih =>
    intro c i hk
    by_cases hi : i < m
    · conv_lhs => rw [all_diffs_lines.eq_def]
      rw [dif_pos hi, (by omega : m - i = (m - (i + 1)) + 1), List.range'_succ,
        List.filterMap_cons, Nat.add_assoc c i 1, ih c (i + 1) (by omega)]
      by_cases hgd : u0.getD i 0 = u1.getD i 0
      · rw [if_neg (fun hh => hh hgd), if_pos hgd, List.nil_append]
      · rw [if_pos hgd, if_neg hgd, List.singleton_append]
    · conv_lhs => rw [all_diffs_lines.eq_def]
      rw [dif_neg hi, (by omega : m - i = 0)]
      rfl

/-- One block of the `-l` mode produces exactly the expected listing over
the compared region of the block. -/
theorem block_diff_events (u0 u1 : List Nat) (m c : Nat)
    (hm : m = min u0.length u1.length) :
    (if byte_scan u0 u1 < m then
       all_diffs_lines u0 u1 (c + byte_scan u0 u1) (byte_scan u0 u1) m
     else [])
    = (List.range m).filterMap (fun j =>
        if u0.getD j 0 = u1.getD j 0 then none
        else some (Event.diff_line (c + j) (u0.getD j 0) (u1.getD j 0))) := by
  have hagree : ∀ j, j < byte_scan u0 u1 → u0.getD j 0 = u1.getD j 0 := by
    intro j hj
    have h := byte_scan_agree u0 u1 j hj
    simp only [List.getD_eq_getElem?_getD, h]
  have hfd_le : byte_scan u0 u1 ≤ m := by
    have := byte_scan_le u0 u1
    omega
  by_cases hfd : byte_scan u0 u1 < m
  · rw [if_pos hfd, List.range_eq_range']
    have hsplit : List.range' 0 (byte_scan u0 u1)
        ++ List.range' (byte_scan u0 u1) (m - byte_scan u0 u1) = List.range' 0 m := by
      have h := List.range'_append 0 (byte_scan u0 u1) (m - byte_scan u0 u1) 1
      simp only [Nat.one_mul, Nat.zero_add] at h
      rw [h, (by omega : m - byte_scan u0 u1 + byte_scan u0 u1 = m)]
    rw [← hsplit, List.filterMap_append]
    have hnil : (List.range' 0 (byte_scan u0 u1)).filterMap (fun j =>
        if u0.getD j 0 = u1.getD j 0 then none
        else some (Event.diff_line (c + j) (u0.getD j 0) (u1.getD j 0))) = [] := by
      rw [List.filterMap_eq_nil_iff]
      intro j hj
      rw [List.mem_range'] at hj
      obtain ⟨idx, hidx, hjeq⟩ := hj
      rw [if_pos (hagree j (by omega))]
    rw [hnil, List.nil_append, all_diffs_lines_eq_range u0 u1 m (m - byte_scan u0 u1)
      c (byte_scan u0 u1) (le_refl _)]
  · rw [if_neg hfd]
    symm
    rw [List.filterMap_eq_nil_iff]
    intro j hj
    rw [List.mem_range] at hj
    rw [if_pos (hagree j (by omega))]

theorem filterMap_congr_mem {f g : Nat → Option Event} (l : List Nat)
    (h : ∀ a ∈ l, f a = g a) : l.filterMap f = l.filterMap g := by
  induction l with
  | nil => rfl
  | cons x xs ih =>
    rw [List.filterMap_cons, List.filterMap_cons, h x (by simp),
      ih (fun a ha => h a (by simp [ha]))]

theorem diff_lines_take (B : Nat) (i0 i1 : List Nat) (c M : Nat) (hMB : M ≤ B) :
    (List.range M).filterMap (fun j =>
      if (i0.take B).getD j 0 = (i1.take B).getD j 0 then none
      else some (Event.diff_line (c + j) ((i0.take B).getD j 0) ((i1.take B).getD j 0)))
    = diff_lines_spec c i0 i1 M := by
  unfold diff_lines_spec
  apply filterMap_congr_mem
  intro j hj
  rw [List.mem_range] at hj
  rw [getD_take_of_lt i0 B j (by omega), getD_take_of_lt i1 B j (by omega)]

theorem diff_lines_spec_split (c B : Nat) (i0 i1 : List Nat)
    (h0 : B ≤ i0.length) (h1 : B ≤ i1.length) :
    diff_lines_spec c i0 i1 (min i0.length i1.length)
      = diff_lines_spec c i0 i1 B
        ++ diff_lines_spec (c + B) (i0.drop B) (i1.drop B)
            (min (i0.drop B).length (i1.drop B).length) := by
  unfold diff_lines_spec
  have hsplit : List.range' 0 B ++ List.range' B (min i0.length i1.length - B)
      = List.range' 0 (min i0.length i1.length) := by
    have h := List.range'_append 0 B (min i0.length i1.length - B) 1
    simp only [Nat.one_mul, Nat.zero_add] at h
    rw [h, (by omega : min i0.length i1.length - B + B = min i0.length i1.length)]
  conv_lhs => rw [List.range_eq_range', ← hsplit]
  rw [List.filterMap_append, ← List.range_eq_range']
  congr 1
  have hlen : min (i0.drop B).length (i1.drop B).length
      = min i0.length i1.length - B := by
    simp only [List.length_drop]
    omega
  rw [hlen, List.range'_eq_map_range, List.filterMap_map]
  apply filterMap_congr_mem
  intro j hj
  simp only [Function.comp_apply, getD_drop, Nat.add_assoc]

/-- The full `-l` event stream: one line per differing position within the
shared compared length, in increasing offset order, then the EOF diagnostic
when the stream lengths differ. -/
theorem cmp_loop_simple_all_events (B : Nat) (hB : 0 < B) :
    ∀ (i0 i1 : List Nat) (c l ret : Nat),
      (cmp_loop_simple CompType.type_all_diffs B c l ret i0 i1).2
        = diff_lines_spec c i0 i1 (min i0.length i1.length)
          ++ (if i0.length = i1.length then []
              else [Event.eof_on (if i1.length < i0.length then 1 else 0)]) := by
  have H : ∀ n (i0 i1 : List Nat) (c l ret : Nat), i0.length < n →
      (cmp_loop_simple CompType.type_all_diffs B c l ret i0 i1).2
        = diff_lines_spec c i0 i1 (min i0.length i1.length)
          ++ (if i0.length = i1.length then []
              else [Event.eof_on (if i1.length < i0.length then 1 else 0)]) := by
    intro n
    induction n with
    | zero =>
      intro i0 _ _ _ _ h
      omega
    | succ n ih =>
      intro i0 i1 c l ret hn
      have hfdle : byte_scan (i0.take B) (i1.take B)
          ≤ min (min B i0.length) (min B i1.length) := by
        have h := byte_scan_le (i0.take B) (i1.take B)
        simp only [List.length_take] at h
        omega
      have hevs := block_diff_events (i0.take B) (i1.take B)
        (min (min B i0.length) (min B i1.length)) c
        (by simp only [List.length_take])
      conv_lhs => rw [cmp_loop_simple.eq_def]
      dsimp only
      rw [if_neg (fun hh => absurd hh.2 (by decide)),
        if_neg (fun hh => absurd hh.2 (by decide)),
        hevs, diff_lines_take B i0 i1 c _ (by omega)]
      by_cases hne : ¬ (min B i0.length = min B i1.length)
      · rw [if_pos hne]
        dsimp only
        rw [if_neg (by decide : ¬ CompType.type_all_diffs = CompType.type_status)]
        have hM : min (min B i0.length) (min B i1.length) = min i0.length i1.length := by
          omega
        rw [hM]
        congr 1
        have hlne : ¬ i0.length = i1.length := by omega
        rw [if_neg hlne]
        by_cases hlt : i1.length < i0.length
        · rw [if_pos (by omega : min B i1.length < min B i0.length), if_pos hlt]
        · rw [if_neg (by omega : ¬ min B i1.length < min B i0.length), if_neg hlt]
      · rw [if_neg hne]
        push_neg at hne
        by_cases h2 : 0 < B ∧ min B i0.length = B
        · rw [dif_pos h2]
          dsimp only
          have hb0 : B ≤ i0.length := by omega
          have hb1 : B ≤ i1.length := by omega
          have hMB : min (min B i0.length) (min B i1.length) = B := by omega
          have hc : c + byte_scan (i0.take B) (i1.take B)
              + (min (min B i0.length) (min B i1.length)
                  - byte_scan (i0.take B) (i1.take B))
              = c + B := by omega
          rw [hc, ih _ _ _ _ _ (by simp only [List.length_drop]; omega), hMB]
          have hEOFdrop : (if (i0.drop B).length = (i1.drop B).length then ([] : List Event)
              else [Event.eof_on (if (i1.drop B).length < (i0.drop B).length
                then 1 else 0)])
              = (if i0.length = i1.length then []
                 else [Event.eof_on (if i1.length < i0.length then 1 else 0)]) := by
            simp only [List.length_drop]
            by_cases he : i0.length = i1.length
            · rw [if_pos (by omega : i0.length - B = i1.length - B), if_pos he]
            · rw [if_neg (by omega : ¬ i0.length - B = i1.length - B), if_neg he]
              by_cases hlt : i1.length < i0.length
              · rw [if_pos (by omega : i1.length - B < i0.length - B), if_pos hlt]
              · rw [if_neg (by omega : ¬ i1.length - B < i0.length - B), if_neg hlt]
          rw [hEOFdrop, diff_lines_spec_split c B i0 i1 hb0 hb1, List.append_assoc]
        · rw [dif_neg h2]
          dsimp only
          have hl0 : i0.length < B := by omega
          have hl1 : i0.length = i1.length := by omega
          have hM : min (min B i0.length) (min B i1.length)
              = min i0.length i1.length := by omega
          rw [hM, if_pos hl1, List.append_nil]
  intro i0 i1 c l ret
  exact H (i0.length + 1) i0 i1 c l ret (by omega)

/-! ### The claims -/

/-- C1: for every pair of inputs that first differ at 0-based position `k`
(a common prefix `p` of length `k`, then bytes `a ≠ b`), a run in
first-difference mode prints a report giving character number
`k + ignore_initial + 1` and line number `1 + (newline bytes in the common
prefix before position k)`, the accounting staying correct across block
boundaries (any block size `B > 0`, any word size). -/
theorem C1_first_diff_position (W B ign k : Nat) (p r0 r1 : List Nat) (a b : Nat)
    (hB : 0 < B) (hab : a ≠ b) (hk : k = p.length) :
    cmp CompType.type_first_diff W B ign (p ++ a :: r0) (p ++ b :: r1)
      = (1, [Event.first_diff_report (k + ign + 1) (1 + nl_count p) a b]) := by
  rw [cmp, cmp_loop_eq_simple,
    cmp_loop_simple_first_diff B hB p r0 r1 a b (ign + 1) 1 0 hab, hk,
    (by omega : ign + 1 + p.length = p.length + ign + 1)]

theorem C1_witness :
    0 < 2 ∧ (88 ≠ 89) ∧ (3 = [65, 10, 66].length)
    ∧ cmp CompType.type_first_diff 4 2 5 [65, 10, 66, 88, 1] [65, 10, 66, 89]
        = (1, [Event.first_diff_report 9 2 88 89]) :=
  ⟨by decide, by decide, by decide,
    C1_first_diff_position 4 2 5 3 [65, 10, 66] [1] [] 88 89 (by decide) (by decide)
      (by decide)⟩

/-- C2: after the sentinel bytes are written, the block comparator returns
the exact 0-based offset of the first differing byte (the bytes before it
agree, the bytes at it differ), the offset never exceeds the shorter read
length (the scan never runs past either buffer's valid data), and buffers
that agree over the whole shorter read length give exactly that read
length. -/
theorem C2_sentinel_exact (W r0 r1 : Nat) (b0 b1 : List Nat)
    (h00 : r0 < b0.length) (h01 : r0 < b1.length)
    (h10 : r1 < b0.length) (h11 : r1 < b1.length) :
    block_compare W (add_sentinels b0 b1 r0 r1).1 (add_sentinels b0 b1 r0 r1).2
        ≤ min r0 r1
    ∧ (∀ j, j < block_compare W (add_sentinels b0 b1 r0 r1).1 (add_sentinels b0 b1 r0 r1).2 →
        (add_sentinels b0 b1 r0 r1).1[j]? = (add_sentinels b0 b1 r0 r1).2[j]?)
    ∧ (add_sentinels b0 b1 r0 r1).1[block_compare W (add_sentinels b0 b1 r0 r1).1
          (add_sentinels b0 b1 r0 r1).2]?
        ≠ (add_sentinels b0 b1 r0 r1).2[block_compare W (add_sentinels b0 b1 r0 r1).1
          (add_sentinels b0 b1 r0 r1).2]?
    ∧ ((∀ j, j < min r0 r1 → b0[j]? = b1[j]?) →
        block_compare W (add_sentinels b0 b1 r0 r1).1 (add_sentinels b0 b1 r0 r1).2
          = min r0 r1) :=
  sentinel_exact W r0 r1 b0 b1 h00 h01 h10 h11

theorem C2_witness :
    (3 < 4 ∧ 2 < 4)
    ∧ (block_compare 2 (add_sentinels [7, 2, 9, 0] [7, 5, 9, 0] 3 2).1
          (add_sentinels [7, 2, 9, 0] [7, 5, 9, 0] 3 2).2 ≤ min 3 2
      ∧ (∀ j, j < block_compare 2 (add_sentinels [7, 2, 9, 0] [7, 5, 9, 0] 3 2).1
            (add_sentinels [7, 2, 9, 0] [7, 5, 9, 0] 3 2).2 →
          (add_sentinels [7, 2, 9, 0] [7, 5, 9, 0] 3 2).1[j]?
            = (add_sentinels [7, 2, 9, 0] [7, 5, 9, 0] 3 2).2[j]?)
      ∧ (add_sentinels [7, 2, 9, 0] [7, 5, 9, 0] 3 2).1[block_compare 2
            (add_sentinels [7, 2, 9, 0] [7, 5, 9, 0] 3 2).1
            (add_sentinels [7, 2, 9, 0] [7, 5, 9, 0] 3 2).2]?
          ≠ (add_sentinels [7, 2, 9, 0] [7, 5, 9, 0] 3 2).2[block_compare 2
            (add_sentinels [7, 2, 9, 0] [7, 5, 9, 0] 3 2).1
            (add_sentinels [7, 2, 9, 0] [7, 5, 9, 0] 3 2).2]?
      ∧ ((∀ j, j < min 3 2 → ([7, 2, 9, 0] : List Nat)[j]? = ([7, 5, 9, 0] : List Nat)[j]?) →
          block_compare 2 (add_sentinels [7, 2, 9, 0] [7, 5, 9, 0] 3 2).1
            (add_sentinels [7, 2, 9, 0] [7, 5, 9, 0] 3 2).2 = min 3 2)) :=
  ⟨by decide,
    C2_sentinel_exact 2 3 2 [7, 2, 9, 0] [7, 5, 9, 0] (by decide) (by decide)
      (by decide) (by decide)⟩

/-- C3: for every block pair, the counting entry point
`block_compare_and_count` returns the same first-difference offset as the
plain entry point `block_compare`, and its count increment is exactly the
number of newline bytes strictly before the returned offset. -/
theorem C3_count_agrees (W : Nat) (b0 b1 : List Nat) :
    (block_compare_and_count W b0 b1).1 = block_compare W b0 b1
    ∧ (block_compare_and_count W b0 b1).2
        = nl_count (b0.take (block_compare W b0 b1)) :=
  ⟨block_compare_and_count_fst W b0 b1, block_compare_and_count_snd W b0 b1⟩

/-- C4: bytewise-identical inputs (in particular any stream against its own
content) compare as "identical": exit status 0 and no output, in every
comparison mode. -/
theorem C4_identical_zero (ct : CompType) (W B ign : Nat) (i0 i1 : List Nat)
    (hB : 0 < B) (heq : i0 = i1) :
    cmp ct W B ign i0 i1 = (0, []) := by
  subst heq
  rw [cmp, cmp_loop_eq_simple]
  exact cmp_loop_simple_self ct B hB i0 (ign + 1) 1 0

theorem C4_witness :
    0 < 3 ∧ cmp CompType.type_all_diffs 4 3 0 [5, 6, 7, 10] [5, 6, 7, 10] = (0, []) :=
  ⟨by decide, C4_identical_zero CompType.type_all_diffs 4 3 0 _ _ (by decide) rfl⟩

/-- C5: an all-differences run emits exactly one `-l` line per byte position
where the streams differ within the shared compared length, in strictly
increasing offset order and nothing for agreeing positions (that is the
content of `diff_lines_spec` over `List.range`), keeps scanning blocks to
EOF, appends the EOF diagnostic exactly when the lengths differ, and exits
1 unless the streams are identical. -/
theorem C5_all_diffs_listing (W B ign : Nat) (i0 i1 : List Nat) (hB : 0 < B) :
    (cmp CompType.type_all_diffs W B ign i0 i1).2
      = diff_lines_spec (ign + 1) i0 i1 (min i0.length i1.length)
        ++ (if i0.length = i1.length then []
            else [Event.eof_on (if i1.length < i0.length then 1 else 0)])
    ∧ (cmp CompType.type_all_diffs W B ign i0 i1).1 = if i0 = i1 then 0 else 1 := by
  rw [cmp, cmp_loop_eq_simple]
  exact ⟨cmp_loop_simple_all_events B hB i0 i1 (ign + 1) 1 0,
    cmp_loop_simple_fst CompType.type_all_diffs B hB i0 i1 (ign + 1) 1 0⟩

theorem C5_witness :
    0 < 2
    ∧ ((cmp CompType.type_all_diffs 4 2 0 [1, 2, 3, 4, 9] [1, 5, 3, 7, 9, 8]).2
        = diff_lines_spec 1 [1, 2, 3, 4, 9] [1, 5, 3, 7, 9, 8]
            (min ([1, 2, 3, 4, 9] : List Nat).length ([1, 5, 3, 7, 9, 8] : List Nat).length)
          ++ (if ([1, 2, 3, 4, 9] : List Nat).length = ([1, 5, 3, 7, 9, 8] : List Nat).length
              then []
              else [Event.eof_on (if ([1, 5, 3, 7, 9, 8] : List Nat).length
                  < ([1, 2, 3, 4, 9] : List Nat).length then 1 else 0)])
      ∧ (cmp CompType.type_all_diffs 4 2 0 [1, 2, 3, 4, 9] [1, 5, 3, 7, 9, 8]).1
        = if ([1, 2, 3, 4, 9] : List Nat) = [1, 5, 3, 7, 9, 8] then 0 else 1) :=
  ⟨by decide, C5_all_diffs_listing 4 2 0 [1, 2, 3, 4, 9] [1, 5, 3, 7, 9, 8] (by decide)⟩

/-- C6: when stream 0's content is a strict prefix of stream 1's, the result
is "different" (exit status 1), and in the non-status modes the only output
is the standard-error diagnostic naming stream 0 as the one that reached
EOF. -/
theorem C6_eof_names_shorter (ct : CompType) (W B ign : Nat) (i0 d : List Nat)
    (hB : 0 < B) (hd : d ≠ []) :
    cmp ct W B ign i0 (i0 ++ d)
      = (1, if ct = CompType.type_status then [] else [Event.eof_on 0]) := by
  rw [cmp, cmp_loop_eq_simple]
  exact cmp_loop_simple_strict ct B hB i0 d (ign + 1) 1 0 hd

theorem C6_witness :
    0 < 2 ∧ ([4] : List Nat) ≠ []
    ∧ cmp CompType.type_first_diff 4 2 0 [1, 2, 3] [1, 2, 3, 4]
        = (1, [Event.eof_on 0]) :=
  ⟨by decide, by decide,
    C6_eof_names_shorter CompType.type_first_diff 4 2 0 [1, 2, 3] [4]
      (by decide) (by decide)⟩

/-- C7 counterexample: byte 200 does not render as `M-^H`.  After the `M-`
prefix its low 7 bits are 72, which is the printable `H`, so no caret is
added and the rendering is `M-H`. -/
theorem C7_counterexample :
    sprintc 0 200 = ['M', '-', 'H'] ∧ sprintc 0 200 ≠ ['M', '-', '^', 'H'] := by
  decide

set_option maxRecDepth 40000 in
/-- C7 (amended): the quoted-byte rendering maps byte 0 to `^@`, byte 10 to
`^J`, byte 127 to `^?`, and a byte with the high bit set to an `M-` prefix
followed by the control-quoting rule on its low 7 bits — which leaves
printable values bare, so byte 200 renders as `M-H` (a caret appears only
when the low 7 bits are a control character, e.g. byte 136 renders as
`M-^H`); the result is padded on the right with spaces to the requested
display width. -/
theorem C7_quoting_amended :
    sprintc 0 0 = ['^', '@']
    ∧ sprintc 0 10 = ['^', 'J']
    ∧ sprintc 0 127 = ['^', '?']
    ∧ sprintc 0 200 = ['M', '-', 'H']
    ∧ sprintc 0 136 = ['M', '-', '^', 'H']
    ∧ sprintc 4 88 = ['X', ' ', ' ', ' ']
    ∧ (∀ c : Nat, c < 256 → ∀ w : Nat, w ≤ 8 →
        (sprintc (w : Int) c).length = max w (sprintc 0 c).length) := by
  decide

/-- C8: in status-only mode with two regular files, unequal
`max 0 (st_size - file_position)` values (the sizes minus the skip offset,
clamped to 0) exit with status 1 before and regardless of any file
content. -/
theorem C8_status_size_shortcut (W B ign : Nat) (size0 size1 : Int)
    (c0 c1 : List Nat)
    (hne : max 0 (size0 - file_position ign) ≠ max 0 (size1 - file_position ign)) :
    run_after_open CompType.type_status W B true true size0 size1 ign c0 c1
      = (1, []) := by
  rw [run_after_open, if_pos ⟨rfl, rfl, rfl, hne⟩]

theorem C8_witness :
    max 0 ((5 : Int) - file_position 0) ≠ max 0 ((3 : Int) - file_position 0)
    ∧ run_after_open CompType.type_status 4 4 true true 5 3 0 [1] [1] = (1, []) :=
  ⟨by decide, C8_status_size_shortcut 4 4 0 5 3 [1] [1] (by decide)⟩

/-- C9: an operand that cannot be opened makes the program exit with status
2 in every mode — with a diagnostic naming the operand except in
status-only mode, which stays silent but still exits 2, never 1 — and the
comparison itself exits 0 exactly on identical contents and 1 otherwise,
so the exit codes separate "identical" (0), "different" (1) and error
(2). -/
theorem C9_exit_codes :
    (∀ (ct : CompType) (statFail : Bool) (f : Nat),
      open_check ct true statFail f
        = some (2, if ct = CompType.type_status then none else some f))
    ∧ (∀ (ct : CompType) (W B ign : Nat) (i0 i1 : List Nat), 0 < B →
      (cmp ct W B ign i0 i1).1 = if i0 = i1 then 0 else 1) := by
  constructor
  · intro ct statFail f
    by_cases hct : ct = CompType.type_status
    · simp [open_check, hct]
    · simp [open_check, hct]
  · intro ct W B ign i0 i1 hB
    rw [cmp, cmp_loop_eq_simple]
    exact cmp_loop_simple_fst ct B hB i0 i1 (ign + 1) 1 0

theorem C9_witness :
    open_check CompType.type_status true false 7 = some (2, none)
    ∧ open_check CompType.type_first_diff true false 7 = some (2, some 7)
    ∧ (0 < 2 ∧ (cmp CompType.type_first_diff 4 2 0 [1] [2]).1 = 1) := by
  refine ⟨?_, ?_, by decide, ?_⟩
  · have h := C9_exit_codes.1 CompType.type_status false 7
    simpa using h
  · have h := C9_exit_codes.1 CompType.type_first_diff false 7
    simpa using h
  · have h := C9_exit_codes.2 CompType.type_first_diff 4 2 0 [1] [2] (by decide)
    rw [h]
    decide

/-- C10: each `-l` / `-s` occurrence overwrites the comparison mode, so with
both flags present the last one on the command line wins: any option list
ending in `s` yields status-only mode and any ending in `l` yields
all-differences mode; in particular `-l -s` is status-only and `-s -l` is
all-differences. -/
theorem C10_last_flag_wins :
    (∀ fs : List Char, parse_comparison_type (fs ++ ['s']) = CompType.type_status)
    ∧ (∀ fs : List Char, parse_comparison_type (fs ++ ['l']) = CompType.type_all_diffs)
    ∧ parse_comparison_type ['l', 's'] = CompType.type_status
    ∧ parse_comparison_type ['s', 'l'] = CompType.type_all_diffs := by
  refine ⟨?_, ?_, by decide, by decide⟩
  · intro fs
    rw [parse_comparison_type, List.foldl_append]
    simp [apply_option]
  · intro fs
    rw [parse_comparison_type, List.foldl_append]
    simp [apply_option]

end Cmp
